import Mathlib

/-!
Verification of the list-generation script `scripts/generate_pornsite.py`.

Embedding choices:
* A text line is a `List Char` (`Line`); a file's content is its list of lines
  (`Content`), i.e. the result of Python's `splitlines()` is taken as primitive.
* Python string operations are modelled on character lists:
  `str.strip()` is `pyStrip` (stripping the ASCII whitespace class),
  `str.startswith(p)` is `List.isPrefixOf`, `str.lower()` maps
  `Char.toLower` over the characters (the needle `ehentai` is plain ASCII),
  `sub in s` is `containsSub`, and `s.split(":", 1)[1]` is `splitColonRest`.
* The file system / network is a finite association list `Assoc` from names to
  contents; `read_local` / `fetch_remote` returning the empty string on any
  failure is modelled by `readFile` returning the empty content for absent
  names.
* The `while queue:` loop of `load_all` is modelled by the fuelled function
  `loadAllFuel`; `none` means the fuel ran out before the queue emptied.
  `fuelBound` is an explicit bound proved sufficient, and `load_all` runs the
  loop with that fuel.
* The tail of `main` (directory creation and file writing) is modelled by
  `writePhase` over two oracle outcomes: `os.makedirs` is *outside* the
  `try`, so its failure propagates as `Except.error`; the `open`/`write`
  failure is caught and `main` still returns `0`.
-/

namespace RulesetGen

/-- A single text line, as a list of characters. -/
abbrev Line := List Char

/-- A file content, as its list of lines. -/
abbrev Content := List Line

/-- The name-to-content map describing the (local or remote) data set. -/
abbrev Assoc := List (Line × Content)

/-- Characters of a string literal. -/
def strL (s : String) : Line := s.toList

/-- The ASCII whitespace class stripped by Python's `str.strip()`. -/
def pySpace (c : Char) : Bool :=
  c = ' ' || c = '\t' || c = '\n' || c = '\r' || c = '\x0b' || c = '\x0c'

/-- Python's `s.strip()`: drop whitespace from both ends. -/
def pyStrip (s : Line) : Line :=
  ((s.dropWhile pySpace).reverse.dropWhile pySpace).reverse

/-- Python's `s.split(":", 1)[1]`: everything after the first colon
(used only on lines known to contain a colon). -/
def splitColonRest (s : Line) : Line :=
  (s.dropWhile (fun c => !(c = ':'))).drop 1

/-- Python's substring test `needle in hay`. -/
def containsSub (needle : Line) : Line → Bool
  | [] => needle.isEmpty
  | c :: t => needle.isPrefixOf (c :: t) || containsSub needle t

/-- Python's `s.lower()` (ASCII case folding suffices for the fixed needle). -/
def lowerLine (s : Line) : Line := s.map Char.toLower

/-- The check `'ehentai' in l.lower()` from the script. -/
def ehentaiIn (l : Line) : Bool := containsSub (strL "ehentai") (lowerLine l)

/-- The fixed root file name `START = 'category-porn'`. -/
def START : Line := strL "category-porn"

/-- Core of `transform` (source lines 76-97), applied to the stripped line. -/
def transformCore (l : Line) : Option Line :=
  if l.isEmpty || (strL "#").isPrefixOf l then none
  else if (strL "include:").isPrefixOf l then none
  else if (strL "regexp:").isPrefixOf l then none
  else if ehentaiIn l then none
  else if (strL "full:").isPrefixOf l then
    if (pyStrip (splitColonRest l)).contains '.' then
      some (strL "DOMAIN," ++ pyStrip (splitColonRest l))
    else
      some (strL "DOMAIN-KEYWORD," ++ pyStrip (splitColonRest l))
  else if l.contains '.' then some (strL "DOMAIN-SUFFIX," ++ l)
  else some (strL "DOMAIN-KEYWORD," ++ l)

/-- `transform(line)` from the script: strip, then classify. -/
def transform (line : Line) : Option Line := transformCore (pyStrip line)

/-- Association-list lookup (Python `dict` access / `in` test). -/
def lookupA : Assoc → Line → Option Content
  | [], _ => none
  | (k, v) :: t, n => if k = n then some v else lookupA t n

/-- `read_local` / `fetch_remote`: content of a name, empty on any failure. -/
def readFile (fs : Assoc) (name : Line) : Content := (lookupA fs name).getD []

/-- The stripped include-directive values of a content, in order
(the scan `for line in txt.splitlines(): ... if line.startswith('include:')`). -/
def includeNamesOf (txt : Content) : List Line :=
  txt.filterMap fun line =>
    if (strL "include:").isPrefixOf (pyStrip line) then
      some (pyStrip (splitColonRest (pyStrip line)))
    else none

/-- The names appended to the BFS queue while scanning a content, given the
current visited set (source lines 65-71): nonempty, no `ehentai` substring
(case-insensitive), not yet visited. -/
def enqueueList (txt : Content) (seen : List Line) : List Line :=
  (includeNamesOf txt).filter fun inc =>
    !inc.isEmpty && !ehentaiIn inc && !(decide (inc ∈ seen))

/-- The `while queue:` loop of `load_all` (source lines 55-71), with explicit
fuel; `none` means the fuel was exhausted before the queue emptied. -/
def loadAllFuel (fs : Assoc) : Nat → List Line → List Line → Assoc → Option Assoc
  | _, [], _, acc => some acc
  | 0, _ :: _, _, _ => none
  | Nat.succ fuel, name :: rest, seen, acc =>
    if name ∈ seen then loadAllFuel fs fuel rest seen acc
    else
      loadAllFuel fs fuel
        (rest ++ enqueueList (readFile fs name) (name :: seen))
        (name :: seen)
        (acc ++ [(name, readFile fs name)])

/-- All include-directive values occurring anywhere in the data set. -/
def allIncTargets : Assoc → List Line
  | [] => []
  | (_, v) :: t => includeNamesOf v ++ allIncTargets t

/-- Every name the BFS loop can ever have on its queue. -/
def allNames (fs : Assoc) : List Line := START :: allIncTargets fs

/-- One more than the largest possible number of names enqueued in one step. -/
def stepBound (fs : Assoc) : Nat := (allIncTargets fs).length + 1

/-- Fuel that always suffices for the BFS loop to drain its queue. -/
def fuelBound (fs : Assoc) : Nat := (allNames fs).length * stepBound fs + 1

/-- `load_all` (source lines 49-73): BFS from `START`, collecting contents. -/
def load_all (fs : Assoc) : Assoc :=
  (loadAllFuel fs (fuelBound fs) [START] [] []).getD []

/-- The root file's include order (source lines 113-119): stripped nonempty
include values of the main text, in source order, duplicates kept. -/
def includeOrder (mainTxt : Content) : List Line :=
  mainTxt.filterMap fun line =>
    if (strL "include:").isPrefixOf (pyStrip line) then
      if (pyStrip (splitColonRest (pyStrip line))).isEmpty then none
      else some (pyStrip (splitColonRest (pyStrip line)))
    else none

/-- The inner emission loop (source lines 128-132 and 136-142): transform each
line, appending rules not yet in the seen set; returns the new seen set and
the extended output lines. -/
def emitRules : Content → List Line → List Line → List Line × List Line
  | [], seen, out => (seen, out)
  | line :: rest, seen, out =>
    match transform line with
    | none => emitRules rest seen out
    | some t =>
      if t ∈ seen then emitRules rest seen out
      else emitRules rest (t :: seen) (out ++ [t])

/-- The header line `'# ' + inc`. -/
def headerLine (inc : Line) : Line := strL "# " ++ inc

/-- Pass 1 of `main` (source lines 124-133): one labeled block per name of the
include order that has an entry in the contents map. -/
def pass1 : List Line → Assoc → List Line → List Line → List Line × List Line
  | [], _, seen, out => (seen, out)
  | inc :: rest, contents, seen, out =>
    match lookupA contents inc with
    | none => pass1 rest contents seen out
    | some txt =>
      pass1 rest contents
        (emitRules txt seen (out ++ [headerLine inc])).1
        ((emitRules txt seen (out ++ [headerLine inc])).2 ++ [[]])

/-- Pass 2 of `main` (source lines 135-142): the `# others` block from the
root file's own non-include lines. -/
def pass2 (mainTxt : Content) (seen out : List Line) : List Line × List Line :=
  emitRules
    (mainTxt.filter fun line => !((strL "include:").isPrefixOf (pyStrip line)))
    seen
    (out ++ [strL "# others"])

/-- The root text `contents.get(START, '')`. -/
def mainTxtOf (contents : Assoc) : Content := (lookupA contents START).getD []

/-- The output lines assembled by `main` (source lines 112-142) from an
already-resolved contents map. -/
def buildOutput (contents : Assoc) : List Line :=
  (pass2 (mainTxtOf contents)
    (pass1 (includeOrder (mainTxtOf contents)) contents [] []).1
    (pass1 (includeOrder (mainTxtOf contents)) contents [] []).2).2

/-- The whole pipeline on a data set: resolve includes, then assemble. -/
def generate (fs : Assoc) : List Line := buildOutput (load_all fs)

/-- `'\n'.join(out_lines)`. -/
def joinLines (out : List Line) : Line := List.intercalate ['\n'] out

/-- The final document text written by the script. -/
def outputDoc (fs : Assoc) : Line := joinLines (generate fs)

/-- Outcome of an operating-system call (directory creation, file write). -/
inductive SysCall where
  | ok : SysCall
  | err : SysCall

/-- The destination-writing tail of `main` (source lines 144-155).
`os.makedirs` is outside any `try`, so its failure propagates out of `main`
as an uncaught exception (`Except.error ()`); the `open`/`write` block is
wrapped in `try`/`except`, so its failure only logs and `main` still
returns `0`. -/
def writePhase (mkdirRes writeRes : SysCall) : Except Unit Nat :=
  match mkdirRes with
  | SysCall.err => Except.error ()
  | SysCall.ok =>
    match writeRes with
    | SysCall.err => Except.ok 0
    | SysCall.ok => Except.ok 0

/-- A rule line: the output of `transform` always has this prefix, while
header lines and separator lines never do. -/
def isRule (l : Line) : Bool := (strL "DOMAIN").isPrefixOf l

/-- Header names of an output document: the remainder of every line that
starts with the two characters of a block header. -/
def headersOf (out : List Line) : List Line :=
  out.filterMap fun l =>
    if (strL "# ").isPrefixOf l then some (l.drop 2) else none

/-- Modelled from the spec: first-occurrence order of a name sequence
(each name kept only at its first occurrence), used to state the
header-order claim the way the spec phrases it. -/
def firstOccurAux : List Line → List Line → List Line
  | [], _ => []
  | x :: t, acc => if x ∈ acc then firstOccurAux t acc else x :: firstOccurAux t (x :: acc)

/-- Modelled from the spec: the first-occurrence order of a list of names. -/
def firstOccurrenceOrder (xs : List Line) : List Line := firstOccurAux xs []

/-! ### Helper lemmas about the character-list string operations -/

@[simp] lemma strL_hash : strL "#" = ['#'] := rfl

@[simp] lemma strL_hashsp : strL "# " = ['#', ' '] := rfl

@[simp] lemma strL_inc : strL "include:" = ['i', 'n', 'c', 'l', 'u', 'd', 'e', ':'] := rfl

@[simp] lemma strL_re : strL "regexp:" = ['r', 'e', 'g', 'e', 'x', 'p', ':'] := rfl

@[simp] lemma strL_fu : strL "full:" = ['f', 'u', 'l', 'l', ':'] := rfl

@[simp] lemma strL_dom : strL "DOMAIN" = ['D', 'O', 'M', 'A', 'I', 'N'] := rfl

lemma not_prefixOf_head_ne {a b : Char} (p t : Line) (h : (a == b) = false) :
    ((a :: p).isPrefixOf (b :: t)) = false := by
  simp [List.isPrefixOf, h]

lemma prefixOf_cons_shape {a : Char} {p l : Line} (h : ((a :: p).isPrefixOf l) = true) :
    ∃ t, l = a :: t ∧ p.isPrefixOf t = true := by
  cases l with
  | nil => simp [List.isPrefixOf] at h
  | cons b t =>
    simp only [List.isPrefixOf, Bool.and_eq_true, beq_iff_eq] at h
    exact ⟨t, by rw [h.1], h.2⟩

lemma isPrefixOf_append_right : ∀ (p l v : Line),
    p.isPrefixOf l = true → p.isPrefixOf (l ++ v) = true := by
  intro p
  induction p with
  | nil => intro l v _; simp [List.isPrefixOf]
  | cons a p ih =>
    intro l v h
    obtain ⟨t, rfl, hp⟩ := prefixOf_cons_shape h
    simpa [List.isPrefixOf] using ih t v hp

/-! ### The transformer: drop conditions and emitted rule shapes -/

lemma transform_eq (line : Line) : transform line = transformCore (pyStrip line) := rfl

lemma transformCore_none_iff (l : Line) :
    transformCore l = none ↔
      (l.isEmpty = true ∨ (strL "#").isPrefixOf l = true ∨
        (strL "include:").isPrefixOf l = true ∨ (strL "regexp:").isPrefixOf l = true ∨
        ehentaiIn l = true) := by
  unfold transformCore
  split_ifs with h1 h2 h3 h4 h5 h6 h7
  all_goals simp_all [Bool.or_eq_true]
  all_goals tauto

/-- C2: `transform` drops a line exactly when the stripped line is blank,
starts with `#`, starts with `include:`, starts with `regexp:`, or contains
the substring `ehentai` case-insensitively; the prefix keywords are matched
literally, so no other line is dropped. -/
theorem c2_transform_drop_iff (line : Line) :
    transform line = none ↔
      ((pyStrip line).isEmpty = true ∨
        (strL "#").isPrefixOf (pyStrip line) = true ∨
        (strL "include:").isPrefixOf (pyStrip line) = true ∨
        (strL "regexp:").isPrefixOf (pyStrip line) = true ∨
        ehentaiIn (pyStrip line) = true) := by
  rw [transform_eq]
  exact transformCore_none_iff (pyStrip line)

lemma transformCore_full {l : Line}
    (hf : (strL "full:").isPrefixOf l = true) (hno : ehentaiIn l = false) :
    transformCore l =
      (if (pyStrip (splitColonRest l)).contains '.' then
        some (strL "DOMAIN," ++ pyStrip (splitColonRest l))
      else some (strL "DOMAIN-KEYWORD," ++ pyStrip (splitColonRest l))) := by
  obtain ⟨t, rfl, -⟩ := prefixOf_cons_shape (by simpa using hf)
  unfold transformCore
  rw [if_neg, if_neg, if_neg, if_neg, if_pos hf]
  · rw [hno]; simp
  · rw [strL_re]; simp [not_prefixOf_head_ne]
  · rw [strL_inc]; simp [not_prefixOf_head_ne]
  · rw [strL_hash]
    simp [List.isEmpty, not_prefixOf_head_ne]

lemma transformCore_plain {l : Line}
    (h0 : l.isEmpty = false)
    (h1 : (strL "#").isPrefixOf l = false)
    (h2 : (strL "include:").isPrefixOf l = false)
    (h3 : (strL "regexp:").isPrefixOf l = false)
    (h4 : (strL "full:").isPrefixOf l = false)
    (hno : ehentaiIn l = false) :
    transformCore l =
      (if l.contains '.' then some (strL "DOMAIN-SUFFIX," ++ l)
      else some (strL "DOMAIN-KEYWORD," ++ l)) := by
  unfold transformCore
  rw [h0, h1, h2, h3, h4, hno]
  simp

/-- C1 counterexample: the line `full:ehentai.com` is `full:`-prefixed and its
value contains a dot, yet `transform` drops it instead of emitting
`DOMAIN,ehentai.com`, so the unrestricted claim is false. -/
theorem c1_counterexample :
    (strL "full:").isPrefixOf (pyStrip (strL "full:ehentai.com")) = true ∧
    (pyStrip (splitColonRest (pyStrip (strL "full:ehentai.com")))).contains '.' = true ∧
    transform (strL "full:ehentai.com") ≠
      some (strL "DOMAIN," ++ pyStrip (splitColonRest (pyStrip (strL "full:ehentai.com")))) := by
  decide

/-- C1 (amended): provided the stripped line does not contain the excluded
substring `ehentai` case-insensitively, a `full:`-prefixed line maps to
`DOMAIN,<value>` when the trimmed value has a dot and to
`DOMAIN-KEYWORD,<value>` otherwise, and a plain nonempty line (no `#`,
`include:`, `regexp:` or `full:` prefix) maps to `DOMAIN-SUFFIX,<line>` with
a dot and `DOMAIN-KEYWORD,<line>` without one. -/
theorem c1_transform_shapes (line : Line)
    (hno : ehentaiIn (pyStrip line) = false) :
    ((strL "full:").isPrefixOf (pyStrip line) = true →
      ((pyStrip (splitColonRest (pyStrip line))).contains '.' = true →
        transform line = some (strL "DOMAIN," ++ pyStrip (splitColonRest (pyStrip line)))) ∧
      ((pyStrip (splitColonRest (pyStrip line))).contains '.' = false →
        transform line = some (strL "DOMAIN-KEYWORD," ++ pyStrip (splitColonRest (pyStrip line))))) ∧
    ((pyStrip line).isEmpty = false →
      (strL "#").isPrefixOf (pyStrip line) = false →
      (strL "include:").isPrefixOf (pyStrip line) = false →
      (strL "regexp:").isPrefixOf (pyStrip line) = false →
      (strL "full:").isPrefixOf (pyStrip line) = false →
      (((pyStrip line).contains '.' = true →
        transform line = some (strL "DOMAIN-SUFFIX," ++ pyStrip line)) ∧
      ((pyStrip line).contains '.' = false →
        transform line = some (strL "DOMAIN-KEYWORD," ++ pyStrip line)))) := by
  constructor
  · intro hf
    rw [transform_eq, transformCore_full hf hno]
    constructor
    · intro hdot; rw [if_pos hdot]
    · intro hdot; rw [if_neg (by simp only [Bool.not_eq_true]; exact hdot)]
  · intro h0 h1 h2 h3 h4
    rw [transform_eq, transformCore_plain h0 h1 h2 h3 h4 hno]
    constructor
    · intro hdot; rw [if_pos hdot]
    · intro hdot; rw [if_neg (by simp only [Bool.not_eq_true]; exact hdot)]

/-- C1 witness: concrete instances of all four shapes of the amended claim. -/
theorem c1_transform_shapes_witness :
    transform (strL "full:a.b.c") = some (strL "DOMAIN,a.b.c") ∧
    transform (strL "full:keyword") = some (strL "DOMAIN-KEYWORD,keyword") ∧
    transform (strL "example.com") = some (strL "DOMAIN-SUFFIX,example.com") ∧
    transform (strL "adult") = some (strL "DOMAIN-KEYWORD,adult") := by
  refine ⟨?_, ?_, ?_, ?_⟩
  · have h := ((c1_transform_shapes (strL "full:a.b.c") (by decide)).1 (by decide)).1 (by decide)
    exact h.trans (by decide)
  · have h := ((c1_transform_shapes (strL "full:keyword") (by decide)).1 (by decide)).2 (by decide)
    exact h.trans (by decide)
  · have h := ((c1_transform_shapes (strL "example.com") (by decide)).2 (by decide) (by decide)
      (by decide) (by decide) (by decide)).1 (by decide)
    exact h.trans (by decide)
  · have h := ((c1_transform_shapes (strL "adult") (by decide)).2 (by decide) (by decide)
      (by decide) (by decide) (by decide)).2 (by decide)
    exact h.trans (by decide)

/-! ### Stripping lemmas, for the empty-valued `full:` lines -/

lemma dropWhile_head_false {p : Char → Bool} :
    ∀ {xs t : Line} {c : Char}, List.dropWhile p xs = c :: t → p c = false := by
  intro xs
  induction xs with
  | nil => intro t c h; simp [List.dropWhile] at h
  | cons a xs ih =>
    intro t c h
    rw [List.dropWhile_cons] at h
    by_cases ha : p a = true
    · rw [if_pos ha] at h; exact ih h
    · rw [if_neg ha] at h
      cases h
      simpa using ha

lemma pyStrip_last_not_space {s l' : Line} {c : Char}
    (h : pyStrip s = l' ++ [c]) : pySpace c = false := by
  unfold pyStrip at h
  have hu : (s.dropWhile pySpace).reverse.dropWhile pySpace = c :: l'.reverse := by
    have := congrArg List.reverse h
    simpa using this
  exact dropWhile_head_false hu

lemma pyStrip_nil_all_space {r : Line} (h : pyStrip r = []) :
    ∀ c ∈ r, pySpace c = true := by
  unfold pyStrip at h
  rw [List.reverse_eq_nil_iff, List.dropWhile_eq_nil_iff] at h
  have hdrop : ∀ c ∈ r.dropWhile pySpace, pySpace c = true := by
    intro c hc
    exact h c (List.mem_reverse.mpr hc)
  intro c hc
  rw [← List.takeWhile_append_dropWhile pySpace r] at hc
  rcases List.mem_append.mp hc with h1 | h2
  · exact List.mem_takeWhile_imp h1
  · exact hdrop c h2

lemma splitColonRest_full (rest : Line) :
    splitColonRest (strL "full:" ++ rest) = rest := by
  simp [splitColonRest, strL_fu, List.dropWhile_cons]

/-- C10: a line whose stripped form starts with `full:` and whose value after
the first colon strips to nothing is not dropped: `transform` emits the
empty-valued rule `DOMAIN-KEYWORD,`. -/
theorem c10_full_empty_value (line : Line)
    (h1 : (strL "full:").isPrefixOf (pyStrip line) = true)
    (h2 : pyStrip (splitColonRest (pyStrip line)) = []) :
    transform line = some (strL "DOMAIN-KEYWORD,") := by
  obtain ⟨rest, hrest⟩ : ∃ rest, strL "full:" ++ rest = pyStrip line :=
    List.isPrefixOf_iff_prefix.mp h1
  have hsplit : pyStrip (splitColonRest (pyStrip line)) = pyStrip rest := by
    rw [← hrest, splitColonRest_full]
  have hws : ∀ c ∈ rest, pySpace c = true :=
    pyStrip_nil_all_space (by rw [← hsplit]; exact h2)
  have hrnil : rest = [] := by
    rcases List.eq_nil_or_concat rest with hnil | ⟨L, b, hLb⟩
    · exact hnil
    · exfalso
      have hb : pySpace b = true := hws b (by rw [hLb]; simp)
      have hlast : pyStrip line = (strL "full:" ++ L) ++ [b] := by
        rw [← hrest, hLb]; simp [List.concat_eq_append]
      rw [pyStrip_last_not_space hlast] at hb
      cases hb
  have hfull : pyStrip line = strL "full:" := by
    rw [← hrest, hrnil]; simp
  rw [transform_eq, hfull]
  decide

/-- C10 witness: the literal line `full:` produces the empty-valued rule. -/
theorem c10_full_empty_value_witness :
    transform (strL "full:") = some (strL "DOMAIN-KEYWORD,") :=
  c10_full_empty_value (strL "full:") (by decide) (by decide)

/-! ### The aggregator: emitted rules, dedup invariant, block structure -/

lemma transformCore_isRule {l t : Line} (h : transformCore l = some t) : isRule t = true := by
  unfold transformCore at h
  split_ifs at h
  all_goals first
    | exact Option.noConfusion h
    | (injection h with h'
       subst h'
       exact isPrefixOf_append_right _ _ _ (by decide))

lemma transform_isRule {line t : Line} (h : transform line = some t) : isRule t = true :=
  transformCore_isRule h

lemma emitRules_append : ∀ (txt : Content) (seen out : List Line),
    emitRules txt seen out =
      ((emitRules txt seen []).1, out ++ (emitRules txt seen []).2) := by
  intro txt
  induction txt with
  | nil => intro seen out; simp [emitRules]
  | cons line rest ih =>
    intro seen out
    cases htr : transform line with
    | none => simp only [emitRules, htr]; exact ih seen out
    | some t =>
      simp only [emitRules, htr]
      by_cases hts : t ∈ seen
      · rw [if_pos hts, if_pos hts]; exact ih seen out
      · rw [if_neg hts, if_neg hts]
        rw [ih (t :: seen) (out ++ [t]), ih (t :: seen) ([] ++ [t])]
        simp

lemma emitRules_all_rules : ∀ (txt : Content) (seen : List Line),
    ∀ l ∈ (emitRules txt seen []).2, isRule l = true := by
  intro txt
  induction txt with
  | nil => intro seen l hl; simp [emitRules] at hl
  | cons line rest ih =>
    intro seen l hl
    cases htr : transform line with
    | none =>
      simp only [emitRules, htr] at hl
      exact ih seen l hl
    | some t =>
      simp only [emitRules, htr] at hl
      by_cases hts : t ∈ seen
      · rw [if_pos hts] at hl; exact ih seen l hl
      · rw [if_neg hts, emitRules_append rest (t :: seen) ([] ++ [t])] at hl
        simp only [List.nil_append] at hl
        rcases List.mem_append.mp hl with h1 | h2
        · rw [List.mem_singleton.mp h1]
          exact transform_isRule htr
        · exact ih (t :: seen) l h2

lemma rules_inv_append_nonrule {seen out : List Line} {x : Line}
    (h1 : (out.filter isRule).Nodup) (h2 : ∀ l ∈ out, isRule l = true → l ∈ seen)
    (hx : isRule x = false) :
    ((out ++ [x]).filter isRule).Nodup ∧
      ∀ l ∈ out ++ [x], isRule l = true → l ∈ seen := by
  constructor
  · rw [List.filter_append]
    simp [List.filter, hx, h1]
  · intro l hl hrl
    rcases List.mem_append.mp hl with hmem | hmem
    · exact h2 l hmem hrl
    · rw [List.mem_singleton.mp hmem] at hrl
      rw [hrl] at hx
      cases hx

lemma emitRules_inv : ∀ (txt : Content) (seen out : List Line),
    (out.filter isRule).Nodup → (∀ l ∈ out, isRule l = true → l ∈ seen) →
    ((emitRules txt seen out).2.filter isRule).Nodup ∧
      ∀ l ∈ (emitRules txt seen out).2, isRule l = true → l ∈ (emitRules txt seen out).1 := by
  intro txt
  induction txt with
  | nil => intro seen out h1 h2; simpa [emitRules] using ⟨h1, h2⟩
  | cons line rest ih =>
    intro seen out h1 h2
    cases htr : transform line with
    | none => simp only [emitRules, htr]; exact ih seen out h1 h2
    | some t =>
      simp only [emitRules, htr]
      by_cases hts : t ∈ seen
      · rw [if_pos hts]; exact ih seen out h1 h2
      · rw [if_neg hts]
        apply ih (t :: seen) (out ++ [t])
        · rw [List.filter_append]
          simp only [List.filter, transform_isRule htr]
          rw [List.nodup_append]
          refine ⟨h1, List.nodup_singleton t, ?_⟩
          intro x hx hx1
          rw [List.mem_singleton.mp hx1] at hx
          exact hts (h2 t (List.mem_of_mem_filter hx) (List.of_mem_filter hx))
        · intro l hl hrl
          rcases List.mem_append.mp hl with hmem | hmem
          · exact List.mem_cons_of_mem t (h2 l hmem hrl)
          · rw [List.mem_singleton.mp hmem]
            exact List.mem_cons_self t seen

lemma isRule_headerLine (inc : Line) : isRule (headerLine inc) = false := by
  have : headerLine inc = '#' :: ' ' :: inc := rfl
  rw [isRule, this, strL_dom]
  exact not_prefixOf_head_ne _ _ rfl

lemma isRule_blank : isRule [] = false := by decide

lemma isRule_others : isRule (strL "# others") = false := by decide

lemma pass1_inv : ∀ (order : List Line) (contents : Assoc) (seen out : List Line),
    (out.filter isRule).Nodup → (∀ l ∈ out, isRule l = true → l ∈ seen) →
    ((pass1 order contents seen out).2.filter isRule).Nodup ∧
      ∀ l ∈ (pass1 order contents seen out).2, isRule l = true →
        l ∈ (pass1 order contents seen out).1 := by
  intro order
  induction order with
  | nil => intro c seen out h1 h2; simpa [pass1] using ⟨h1, h2⟩
  | cons inc rest ih =>
    intro c seen out h1 h2
    cases hlk : lookupA c inc with
    | none => simp only [pass1, hlk]; exact ih c seen out h1 h2
    | some txt =>
      simp only [pass1, hlk]
      have hhead := rules_inv_append_nonrule h1 h2 (isRule_headerLine inc)
      have hemit := emitRules_inv txt seen (out ++ [headerLine inc]) hhead.1 hhead.2
      have hblank := rules_inv_append_nonrule hemit.1 hemit.2 isRule_blank
      exact ih c _ _ hblank.1 hblank.2

lemma buildOutput_nodup (contents : Assoc) : ((buildOutput contents).filter isRule).Nodup := by
  unfold buildOutput pass2
  have hp := pass1_inv (includeOrder (mainTxtOf contents)) contents [] []
    (by simp) (by simp)
  have hoth := rules_inv_append_nonrule hp.1 hp.2 isRule_others
  exact (emitRules_inv _ _ _ hoth.1 hoth.2).1

/-- C3: over the whole pipeline, no rule line is ever emitted twice anywhere
in the output document (the rule lines of the generated document, across all
include blocks and the trailing block, are pairwise distinct). -/
theorem c3_global_dedup (fs : Assoc) : ((generate fs).filter isRule).Nodup :=
  buildOutput_nodup (load_all fs)

/-- C7: pass 1 on the next include name: a name absent from the contents map
contributes nothing at all, while a present name contributes exactly its
header line, the newly deduplicated rules, and one blank separator line —
the blank line even when the rule list is empty. -/
theorem c7_pass1_blocks (contents : Assoc) (inc : Line) (rest : List Line)
    (seen out : List Line) :
    (lookupA contents inc = none →
      pass1 (inc :: rest) contents seen out = pass1 rest contents seen out) ∧
    (∀ txt, lookupA contents inc = some txt →
      pass1 (inc :: rest) contents seen out =
        pass1 rest contents (emitRules txt seen []).1
          (out ++ [headerLine inc] ++ (emitRules txt seen []).2 ++ [[]])) := by
  constructor
  · intro h; simp only [pass1, h]
  · intro txt h
    simp only [pass1, h]
    rw [emitRules_append txt seen (out ++ [headerLine inc])]

/-- C7 witness: an absent name emits nothing; a present name with empty
content still emits its header and one blank line. -/
theorem c7_pass1_blocks_witness :
    (pass1 [strL "y"] ([] : Assoc) [] [] = pass1 [] [] [] []) ∧
    (pass1 [strL "x"] [(strL "x", ([] : Content))] [] [] =
      pass1 [] [(strL "x", [])] (emitRules [] [] []).1
        ([] ++ [headerLine (strL "x")] ++ (emitRules [] [] []).2 ++ [[]])) :=
  ⟨(c7_pass1_blocks [] (strL "y") [] [] []).1 (by decide),
   (c7_pass1_blocks [(strL "x", [])] (strL "x") [] [] []).2 [] (by decide)⟩

/-! ### Header order of the output blocks -/

lemma headersOf_nil : headersOf [] = [] := rfl

lemma headersOf_append (a b : List Line) :
    headersOf (a ++ b) = headersOf a ++ headersOf b := by
  simp [headersOf, List.filterMap_append]

lemma hashsp_not_prefixOf_D (t : Line) : (strL "# ").isPrefixOf ('D' :: t) = false := by
  rw [strL_hashsp]
  exact not_prefixOf_head_ne _ _ rfl

lemma headersOf_rules {E : List Line} (h : ∀ l ∈ E, isRule l = true) :
    headersOf E = [] := by
  induction E with
  | nil => rfl
  | cons a E ih =>
    have ha : isRule a = true := h a (List.mem_cons_self a E)
    rw [isRule, strL_dom] at ha
    obtain ⟨t, rfl, -⟩ := prefixOf_cons_shape ha
    simp only [headersOf, List.filterMap_cons, hashsp_not_prefixOf_D]
    exact ih fun l hl => h l (List.mem_cons_of_mem _ hl)

lemma headersOf_header1 (inc : Line) : headersOf [headerLine inc] = [inc] := by
  have hpre : (strL "# ").isPrefixOf (headerLine inc) = true := by
    rw [strL_hashsp]
    show (['#', ' '] : Line).isPrefixOf ('#' :: ' ' :: inc) = true
    simp [List.isPrefixOf]
  simp only [headersOf, List.filterMap_cons, hpre, if_pos]
  rfl

lemma headersOf_blank : headersOf [[]] = [] := by decide

lemma headersOf_others1 : headersOf [strL "# others"] = [strL "others"] := by decide

lemma pass1_headers : ∀ (order : List Line) (contents : Assoc) (seen out : List Line),
    headersOf (pass1 order contents seen out).2 =
      headersOf out ++ (order.filter fun i => (lookupA contents i).isSome) := by
  intro order
  induction order with
  | nil => intro c seen out; simp [pass1]
  | cons inc rest ih =>
    intro c seen out
    cases hlk : lookupA c inc with
    | none =>
      simp only [pass1, hlk]
      rw [ih]
      simp [List.filter_cons, hlk]
    | some txt =>
      simp only [pass1, hlk]
      rw [ih, emitRules_append txt seen (out ++ [headerLine inc])]
      simp only [List.filter_cons, hlk, Option.isSome_some, if_pos]
      rw [headersOf_append, headersOf_append, headersOf_append,
        headersOf_header1, headersOf_blank,
        headersOf_rules (fun l hl => emitRules_all_rules txt seen l hl)]
      simp

lemma pass2_headers (mainTxt : Content) (seen out : List Line) :
    headersOf (pass2 mainTxt seen out).2 = headersOf out ++ [strL "others"] := by
  unfold pass2
  rw [emitRules_append]
  rw [headersOf_append, headersOf_append, headersOf_others1,
    headersOf_rules (fun l hl => emitRules_all_rules _ _ l hl)]
  simp

/-- C8 counterexample: when the root file includes `x` twice, the output has
two `# x` header blocks, so the header sequence is not the first-occurrence
order of the root's include directives. -/
theorem c8_counterexample :
    headersOf (generate [(START, [strL "include:x", strL "include:x"]), (strL "x", ([] : Content))]) =
      [strL "x", strL "x", strL "others"] ∧
    firstOccurrenceOrder (includeOrder (readFile
        [(START, [strL "include:x", strL "include:x"]), (strL "x", ([] : Content))] START))
      ++ [strL "others"] = [strL "x", strL "others"] ∧
    headersOf (generate [(START, [strL "include:x", strL "include:x"]), (strL "x", ([] : Content))]) ≠
      firstOccurrenceOrder (includeOrder (readFile
        [(START, [strL "include:x", strL "include:x"]), (strL "x", ([] : Content))] START))
      ++ [strL "others"] := by
  decide

/-- C8 (amended): the header blocks of the output appear in the source order
of the root file's include directives — duplicates producing duplicate
blocks, names without an entry in the contents map skipped — followed by the
trailing `others` header; the breadth-first traversal order plays no role. -/
theorem c8_header_blocks (contents : Assoc) :
    headersOf (buildOutput contents) =
      ((includeOrder (mainTxtOf contents)).filter fun inc => (lookupA contents inc).isSome)
        ++ [strL "others"] := by
  unfold buildOutput
  rw [pass2_headers, pass1_headers]
  simp [headersOf_nil]

/-! ### The include resolver: visit-once and termination -/

lemma lookupA_content_targets : ∀ (fs : Assoc) (n : Line) (txt : Content),
    lookupA fs n = some txt →
    (∀ x ∈ includeNamesOf txt, x ∈ allIncTargets fs) ∧
      (includeNamesOf txt).length ≤ (allIncTargets fs).length := by
  intro fs
  induction fs with
  | nil => intro n txt h; exact Option.noConfusion h
  | cons p t ih =>
    intro n txt h
    obtain ⟨k, v⟩ := p
    simp only [lookupA] at h
    by_cases hk : k = n
    · rw [if_pos hk] at h
      injection h with h'
      subst h'
      constructor
      · intro x hx
        simp only [allIncTargets, List.mem_append]
        exact Or.inl hx
      · simp only [allIncTargets, List.length_append]
        omega
    · rw [if_neg hk] at h
      have hrec := ih n txt h
      constructor
      · intro x hx
        simp only [allIncTargets, List.mem_append]
        exact Or.inr (hrec.1 x hx)
      · simp only [allIncTargets, List.length_append]
        omega

lemma enqueueList_sub (fs : Assoc) (n : Line) (seen : List Line) :
    (∀ x ∈ enqueueList (readFile fs n) seen, x ∈ allIncTargets fs) ∧
      (enqueueList (readFile fs n) seen).length ≤ (allIncTargets fs).length := by
  unfold readFile
  cases h : lookupA fs n with
  | none => simp [enqueueList, includeNamesOf]
  | some txt =>
    simp only [Option.getD_some]
    have hc := lookupA_content_targets fs n txt h
    constructor
    · intro x hx
      exact hc.1 x (List.mem_of_mem_filter hx)
    · exact le_trans (List.length_filter_le _ _) hc.2

/-- The decreasing measure of the BFS loop: unvisited names weighted by the
largest possible enqueue burst, plus the queue length. -/
def bfsMeasure (fs : Assoc) (q seen : List Line) : Nat :=
  ((allNames fs).toFinset \ seen.toFinset).card * stepBound fs + q.length

lemma loadAllFuel_isSome (fs : Assoc) : ∀ (fuel : Nat) (q seen : List Line) (acc : Assoc),
    (∀ n ∈ q, n ∈ allNames fs) → bfsMeasure fs q seen ≤ fuel →
    (loadAllFuel fs fuel q seen acc).isSome = true := by
  intro fuel
  induction fuel with
  | zero =>
    intro q seen acc hq hm
    cases q with
    | nil => simp [loadAllFuel]
    | cons n r =>
      exfalso
      unfold bfsMeasure at hm
      simp only [List.length_cons] at hm
      omega
  | succ f ih =>
    intro q seen acc hq hm
    cases q with
    | nil => simp [loadAllFuel]
    | cons n r =>
      by_cases hn : n ∈ seen
      · simp only [loadAllFuel, if_pos hn]
        apply ih r seen acc (fun m hmem => hq m (List.mem_cons_of_mem n hmem))
        unfold bfsMeasure at hm ⊢
        simp only [List.length_cons] at hm
        omega
      · simp only [loadAllFuel, if_neg hn]
        apply ih
        · intro m hmem
          rcases List.mem_append.mp hmem with h1 | h2
          · exact hq m (List.mem_cons_of_mem n h1)
          · exact List.mem_cons_of_mem START ((enqueueList_sub fs n (n :: seen)).1 m h2)
        · have hnmem : n ∈ (allNames fs).toFinset \ seen.toFinset :=
            Finset.mem_sdiff.mpr ⟨List.mem_toFinset.mpr (hq n (List.mem_cons_self n r)),
              fun hc => hn (List.mem_toFinset.mp hc)⟩
          have hset : (allNames fs).toFinset \ (n :: seen).toFinset =
              ((allNames fs).toFinset \ seen.toFinset).erase n := by
            ext x
            simp only [List.toFinset_cons, Finset.mem_sdiff, Finset.mem_erase, Finset.mem_insert]
            tauto
          have hcard : ((allNames fs).toFinset \ (n :: seen).toFinset).card =
              ((allNames fs).toFinset \ seen.toFinset).card - 1 := by
            rw [hset]
            exact Finset.card_erase_of_mem hnmem
          have hpos : 1 ≤ ((allNames fs).toFinset \ seen.toFinset).card :=
            Finset.card_pos.mpr ⟨n, hnmem⟩
          have hElen : (enqueueList (readFile fs n) (n :: seen)).length ≤
              (allIncTargets fs).length := (enqueueList_sub fs n (n :: seen)).2
          have hEB : (enqueueList (readFile fs n) (n :: seen)).length + 1 ≤ stepBound fs := by
            unfold stepBound
            omega
          unfold bfsMeasure at hm ⊢
          rw [hcard]
          simp only [List.length_append, List.length_cons] at hm ⊢
          obtain ⟨c, hc⟩ : ∃ c, ((allNames fs).toFinset \ seen.toFinset).card = c + 1 :=
            ⟨((allNames fs).toFinset \ seen.toFinset).card - 1,
              (Nat.succ_pred_eq_of_pos hpos).symm⟩
          rw [hc] at hm ⊢
          simp only [Nat.add_sub_cancel]
          have hmul : (c + 1) * stepBound fs = c * stepBound fs + stepBound fs := by ring
          omega

/-- C6: the breadth-first include traversal always terminates: on every finite
data set — include cycles allowed — the loop drains its queue within the
explicit fuel bound, because the visited set bounds re-enqueueing. -/
theorem c6_bfs_terminates (fs : Assoc) :
    (loadAllFuel fs (fuelBound fs) [START] [] []).isSome = true := by
  apply loadAllFuel_isSome
  · intro n hn
    rw [List.mem_singleton.mp hn]
    exact List.mem_cons_self START (allIncTargets fs)
  · unfold bfsMeasure fuelBound
    simp only [List.toFinset_nil, Finset.sdiff_empty, List.length_singleton]
    have hle := List.toFinset_card_le (allNames fs)
    have hmul : (allNames fs).toFinset.card * stepBound fs ≤
        (allNames fs).length * stepBound fs :=
      Nat.mul_le_mul hle (le_refl (stepBound fs))
    omega

lemma loadAllFuel_keys_nodup (fs : Assoc) : ∀ (fuel : Nat) (q seen : List Line) (acc acc' : Assoc),
    (acc.map Prod.fst).Nodup → (∀ k ∈ acc.map Prod.fst, k ∈ seen) →
    loadAllFuel fs fuel q seen acc = some acc' → (acc'.map Prod.fst).Nodup := by
  intro fuel
  induction fuel with
  | zero =>
    intro q seen acc acc' h1 h2 h
    cases q with
    | nil =>
      simp only [loadAllFuel, Option.some.injEq] at h
      rw [← h]
      exact h1
    | cons n r => exact Option.noConfusion h
  | succ f ih =>
    intro q seen acc acc' h1 h2 h
    cases q with
    | nil =>
      simp only [loadAllFuel, Option.some.injEq] at h
      rw [← h]
      exact h1
    | cons n r =>
      simp only [loadAllFuel] at h
      by_cases hn : n ∈ seen
      · rw [if_pos hn] at h
        exact ih r seen acc acc' h1 h2 h
      · rw [if_neg hn] at h
        refine ih _ _ _ _ ?_ ?_ h
        · rw [List.map_append, List.nodup_append]
          refine ⟨h1, by simp, ?_⟩
          intro x hx hx2
          simp only [List.map_cons, List.map_nil, List.mem_singleton] at hx2
          rw [hx2] at hx
          exact hn (h2 n hx)
        · intro k hk
          rw [List.map_append] at hk
          rcases List.mem_append.mp hk with hmem | hmem
          · exact List.mem_cons_of_mem n (h2 k hmem)
          · simp only [List.map_cons, List.map_nil, List.mem_singleton] at hmem
            rw [hmem]
            exact List.mem_cons_self n seen

/-- C5: each file name is read at most once — the keys of the resolved map are
pairwise distinct, so no name (the root included) is ever re-visited — and an
include value is enqueued exactly when it is a trimmed directive value of the
scanned content that is nonempty, free of the excluded substring
(case-insensitively), and not yet in the visited set. -/
theorem c5_read_once (fs : Assoc) :
    ((load_all fs).map Prod.fst).Nodup ∧
      ∀ (txt : Content) (seen : List Line) (inc : Line),
        inc ∈ enqueueList txt seen ↔
          (inc ∈ includeNamesOf txt ∧ inc ≠ [] ∧ ehentaiIn inc = false ∧ inc ∉ seen) := by
  constructor
  · unfold load_all
    cases h : loadAllFuel fs (fuelBound fs) [START] [] [] with
    | none => simp
    | some acc' =>
      simp only [Option.getD_some]
      exact loadAllFuel_keys_nodup fs _ _ _ _ _ (by simp) (by simp) h
  · intro txt seen inc
    unfold enqueueList
    rw [List.mem_filter]
    simp only [Bool.and_eq_true, Bool.not_eq_true']
    constructor
    · rintro ⟨hmem, ⟨hemp, heh⟩, hseen⟩
      refine ⟨hmem, ?_, heh, ?_⟩
      · intro hnil
        rw [hnil] at hemp
        simp at hemp
      · intro hs
        simp only [decide_eq_false_iff_not] at hseen
        exact hseen hs
    · rintro ⟨hmem, hnil, heh, hseen⟩
      refine ⟨hmem, ⟨?_, heh⟩, by simp [hseen]⟩
      cases hinc : inc with
      | nil => exact absurd hinc hnil
      | cons a t => simp [List.isEmpty]

/-! ### End-to-end scenario and the destination-writing tail -/

/-- C4: on the data set whose root file holds `include:x` and `foo.com` and
whose file `x` holds `full:bar.com` and `#comment`, the pipeline produces
exactly the document `# x`, `DOMAIN,bar.com`, blank, `# others`,
`DOMAIN-SUFFIX,foo.com`, newline-joined. -/
theorem c4_end_to_end :
    outputDoc [(START, [strL "include:x", strL "foo.com"]),
      (strL "x", [strL "full:bar.com", strL "#comment"])] =
      strL "# x\nDOMAIN,bar.com\n\n# others\nDOMAIN-SUFFIX,foo.com" := by
  decide

/-- C9 counterexample: when directory creation fails, `main` does not return
the success value `0`: the exception escapes (the call is outside the `try`
block), so the claim that a directory-creation failure is non-fatal is false. -/
theorem c9_counterexample :
    writePhase SysCall.err SysCall.ok ≠ Except.ok 0 := by
  simp [writePhase]

/-- C9 (amended): a failure to create or write the output file is caught and
non-fatal — `main` still returns success `0` — but a failure to create the
output directory is not caught: `main` propagates the exception and the
process does not report success. -/
theorem c9_write_failure_nonfatal :
    (∀ w, writePhase SysCall.ok w = Except.ok 0) ∧
      (∀ w, writePhase SysCall.err w = Except.error ()) := by
  constructor
  · intro w
    cases w <;> rfl
  · intro w
    cases w <;> rfl

end RulesetGen
